import Mathlib

/-!
Shallow embedding of the mailbox-monitor core of `scripts/email_monitor.py`
(class `EmailMonitor` and the CLI `main`), together with theorems checking
the natural-language specification against it.

The embedding follows the Python source line by line:

* filename sanitization and the attachment allow-list/size gate of
  `EmailMonitor.process_new_email` (lines 127-165);
* the monitor state (`running`, `client`, `last_uid`), `update_status`,
  `stop`, and the polling loop of `EmailMonitor.start`, with the behaviour
  of the environment (mailbox contents, per-message fetch/extract/POST
  outcomes, raised exceptions) supplied as oracles, and the observable
  I/O (HTTP PUT/POST, IMAP commands, sleeps, console lines) collected as an
  explicit effect trace.
-/

namespace EmailMonitor

/-! Filename sanitization (process_new_email, lines 132-136).

Python source, with the regex patterns written unquoted:
  safe_filename = os.path.basename(filename)
  safe_filename = re.sub of the character class <>:"|?* by _
  safe_filename = re.sub of runs of two or more dots by a single dot
-/

/-- The characters replaced by the second sanitization step. -/
def dangerousChars : List Char := ['<', '>', ':', '"', '|', '?', '*']

/-- POSIX basename, as used by os.path.basename: the part of the string
after the last slash.  Implemented as a left fold that resets the
accumulator at each slash. -/
def basenameList (s : List Char) : List Char :=
  s.foldl (fun acc c => if c = '/' then [] else acc ++ [c]) []

/-- Pointwise substitution of the dangerous characters by an underscore
(the second sanitization step). -/
def replShady (c : Char) : Char :=
  if c ∈ dangerousChars then '_' else c

/-- Third sanitization step: each maximal run of two or more dots is
replaced by a single dot (a lone dot is left alone, so every maximal
dot-run in the output has length exactly one).  The flag records whether
the previously emitted character was a dot of a run being collapsed. -/
def collapseDotsAux : List Char → Bool → List Char
  | [], _ => []
  | c :: rest, prevDot =>
    if c = '.' then
      if prevDot then collapseDotsAux rest true
      else '.' :: collapseDotsAux rest true
    else c :: collapseDotsAux rest false

def collapseDots (s : List Char) : List Char := collapseDotsAux s false

/-- The three sanitization steps of `process_new_email`, on character lists. -/
def sanitizeChars (s : List Char) : List Char :=
  collapseDots ((basenameList s).map replShady)

/-- The sanitization pipeline applied to `filename`, producing
`safe_filename` (before the empty/`.`/`..` fallback substitution). -/
def sanitizeFilename (s : String) : String :=
  ⟨sanitizeChars s.data⟩

/-- Whether the list contains two adjacent dots (a traversal-style dot-dot
sequence). -/
def hasDoubleDot : List Char → Bool
  | [] => false
  | [_] => false
  | a :: b :: rest => (a = '.' && b = '.') || hasDoubleDot (b :: rest)

/-! Extension extraction (process_new_email, line 140).

The source computes file_ext as the lower-cased second component of
os.path.splitext(safe_filename).  posixpath.splitext returns as extension
the suffix from the last dot after the last slash, provided some non-dot
character of the basename precedes that dot; otherwise the extension is
empty.  It is applied here only to safe_filename, which contains no slash,
so for a slash-free name: strip the leading dots; if a dot remains, the
extension is the suffix from the last dot, else it is empty. -/

/-- The suffix of `s` starting at its last dot (meaningful only when `s`
contains a dot). -/
def afterLastDot (s : List Char) : List Char :=
  s.foldl (fun acc c => if c = '.' then ['.'] else acc ++ [c]) []

/-- Second component of os.path.splitext for a slash-free input. -/
def splitextExt (s : List Char) : List Char :=
  let rest := s.dropWhile (· = '.')
  if rest.contains '.' then afterLastDot rest else []

/-- Lower-cased splitext extension of a sanitized filename, as a `String`
(line 140 of the source). -/
def fileExtOf (safe_filename : String) : String :=
  ⟨(splitextExt safe_filename.data).map Char.toLower⟩

/-! Per-part attachment acceptance (process_new_email, lines 129-165). -/

/-- The list named allowed_extensions at line 139 of the source. -/
def allowed_extensions : List String :=
  [".las", ".txt", ".csv", ".pdf", ".doc", ".docx", ".jpg", ".jpeg", ".png"]

/-- The 100 MiB size cap of line 151. -/
def sizeCap : Nat := 100 * 1024 * 1024

/-- One MIME part carrying a filename, abstracted to the two features the
attachment gate inspects: the (original) filename and the byte length of
the decoded payload. -/
structure MimePart where
  filename : String
  payloadSize : Nat
  deriving Repr, DecidableEq

/-- The body of the `if filename:` branch of the attachment loop, for the
part in position where `len(attachments) = nAttachments`.  Returns the
sanitized filename the payload is written under, or `none` when the part is
skipped (`continue`).  Mirrors the source order: sanitize; compute
`file_ext` from the *pre-fallback* sanitized name; substitute the fallback
name `attachment_<n>.bin` when the sanitized name is empty, `"."` or
`".."`; reject on extension; reject on size; otherwise write. -/
def processAttachment (nAttachments : Nat) (filename : String)
    (payloadSize : Nat) : Option String :=
  let safe0 := sanitizeFilename filename
  let file_ext := fileExtOf safe0
  let safe :=
    if safe0 = "" ∨ safe0 = "." ∨ safe0 = ".." then
      "attachment_" ++ toString nAttachments ++ ".bin"
    else safe0
  if file_ext ∉ allowed_extensions then none
  else if sizeCap < payloadSize then none
  else some safe

/-- The whole attachment loop over the parts of one message that carry a
filename: accumulates the `attachments` list, feeding its current length
into the fallback name of each part, exactly as `len(attachments)` does. -/
def processAttachments (parts : List MimePart) : List String :=
  parts.foldl
    (fun acc p =>
      match processAttachment acc.length p.filename p.payloadSize with
      | some nm => acc ++ [nm]
      | none => acc)
    []

/-! Monitor state and observable effects.

The instance state of `EmailMonitor` (`__init__`, lines 39-42, with the
credential check assumed satisfied): `self.running`, `self.client`
(abstracted to whether a client handle is present), `self.last_uid`. -/

structure MonitorState where
  running : Bool
  clientConnected : Bool
  last_uid : Nat
  deriving Repr, DecidableEq

/-- The state set up by `EmailMonitor.__init__`:
`running = False`, `client = None`, `last_uid = 0`. -/
def initMonitor : MonitorState := ⟨false, false, 0⟩

/-- The loop state of `EmailMonitor.start`: the instance state plus the
local counter `emails_processed` (line 240). -/
structure LoopState where
  mon : MonitorState
  emails_processed : Nat
  deriving Repr, DecidableEq

/-- Observable I/O of the monitor: HTTP `PUT .../monitor/status` attempts
(`isRunning` flag, whether a `lastError` was attached, the
`emailsProcessed` count when sent), HTTP `POST .../emails` attempts
(by uid), attachment writes, IMAP disconnect/connect, sleeps (seconds),
console prints. -/
inductive Effect where
  | putStatus (isRunning : Bool) (withError : Bool) (processed : Option Nat)
  | postEmail (uid : Nat)
  | writeAttachment (name : String)
  | imapDisconnect
  | imapConnect (ok : Bool)
  | sleep (seconds : Nat)
  | console
  deriving Repr, DecidableEq

/-- Outcome of the HTTP PUT inside `update_status`: status 200, some other
status, or a raised exception (e.g. connection refused). -/
inductive PutOutcome where
  | ok200
  | non200
  | raised
  deriving Repr, DecidableEq

/-- Embedding of `EmailMonitor.update_status` (lines 68-88).  The whole body sits inside
`try/except Exception`, so the method returns normally for every outcome of
the PUT; it assigns to no field of `self`, building only the local `data`
dict, so the monitor state is returned unchanged.  Effects: the PUT attempt
and one console line per branch. -/
def update_status (s : MonitorState) (is_running : Bool)
    (error : Option String) (emails_processed : Option Nat)
    (out : PutOutcome) : MonitorState × List Effect :=
  let putEff := Effect.putStatus is_running error.isSome emails_processed
  match out with
  | .ok200 => (s, [putEff, .console])
  | .non200 => (s, [putEff, .console])
  | .raised => (s, [putEff, .console])

/-- Embedding of `EmailMonitor.stop` (lines 308-316): a guarded no-op when not running;
otherwise clears the run flag and reports `isRunning=False`. -/
def stop (s : MonitorState) : MonitorState × List Effect :=
  if !s.running then (s, [.console])
  else ({ s with running := false },
        [.console, .putStatus false false none, .console])

/-- The `stop` subcommand of `main` (lines 333-339): a fresh
`EmailMonitor()` is constructed (so `running = False`) and `stop` is called
on it. -/
def cliStop : MonitorState × List Effect := stop initMonitor

/-! The polling loop of `EmailMonitor.start` (lines 217-306).

The environment is abstracted by oracles: the mailbox contents returned by
`search("ALL")`, and for each uid whether the fetch block (lines 261-270)
completes with valid bytes, whether `process_new_email` reaches its
`save_email_to_api` call (no exception during extraction), and whether the
POST returns 201. -/

/-- Per-message environment oracles for one poll. -/
structure MsgOracle where
  fetchOk : Nat → Bool
  extractOk : Nat → Bool
  postOk : Nat → Bool

/-- Python `sorted` on a list of uids: stable ascending insertion sort. -/
def insertAsc (x : Nat) : List Nat → List Nat
  | [] => [x]
  | y :: ys => if x ≤ y then x :: y :: ys else y :: insertAsc x ys

def sortAsc (l : List Nat) : List Nat := l.foldr insertAsc []

/-- The body of `for uid in sorted(new_messages)` (lines 256-278) for one
uid, threading the loop state and the effect trace.  `break` on a cleared
run flag is modelled as skipping (the run flag is not mutated inside the
batch, so skipping all remaining uids is the same as breaking).  A fetch
failure or invalid payload type raises/continues inside the per-uid
`try/except` (line 277), leaving the state unchanged.  Otherwise
`process_new_email` runs: if it returns `True` (extraction succeeded and
POST gave 201) the counter is bumped and a status update is sent; in
*every* non-raising case line 276 `self.last_uid = max(self.last_uid, uid)`
then advances the cursor. -/
def batchStep (o : MsgOracle) (acc : LoopState × List Effect) (uid : Nat) :
    LoopState × List Effect :=
  let (ls, effs) := acc
  if !ls.mon.running then (ls, effs)
  else if !o.fetchOk uid then (ls, effs ++ [.console])
  else
    let postEffs : List Effect :=
      if o.extractOk uid then [.postEmail uid, .console] else [.console]
    let (count, statusEffs) :=
      if o.extractOk uid && o.postOk uid then
        (ls.emails_processed + 1,
         [Effect.putStatus true false (some (ls.emails_processed + 1)),
          Effect.console])
      else (ls.emails_processed, [Effect.console])
    (⟨{ ls.mon with last_uid := max ls.mon.last_uid uid }, count⟩,
     effs ++ postEffs ++ statusEffs)

/-- What one iteration of `while self.running` (lines 242-298) amounts to:
either the `try` body completes a poll (noop, search, per-uid batch, 30 s
wait), or it raises a transient error (`ssl.SSLError`, `ConnectionResetError`,
`TimeoutError`, ..., line 288) at the noop/search, or it raises some other
exception reaching the generic handler (line 295).  Exceptions raised inside
the per-uid block are caught per-uid (line 277) and so never escape the
batch; hence a transient/fatal event leaves the batch untouched. -/
inductive CycleEvent where
  | poll (mailbox : List Nat) (o : MsgOracle)
  | transientError (reconnectOk : Bool)
  | fatalError

/-- The uids this cycle selects for processing:
`new_messages = [uid for uid in all_messages if uid > self.last_uid]`,
processed in ascending order (line 256) — empty when the client handle is
absent (line 252 `continue`) or when the cycle raised before the search. -/
def selectedOfCycle (ls : LoopState) (ev : CycleEvent) : List Nat :=
  match ev with
  | .poll mailbox _ =>
    if ls.mon.clientConnected then
      sortAsc (mailbox.filter (fun u => ls.mon.last_uid < u))
    else []
  | _ => []

/-- One iteration of the run loop.  A completed poll runs the batch then
waits 30 s (line 283).  A transient error (lines 288-294) disconnects,
sleeps 5 s, retries `connect` — which on failure reports
`isRunning=False` with the error (line 203) and is followed by a 10 s
sleep — and `continue`s.  Any other exception (lines 295-298) prints,
reports `isRunning=False` with the error, sleeps 10 s, and falls through to
the next `while` test with the run flag untouched. -/
def runCycle (ls : LoopState) (ev : CycleEvent) : LoopState × List Effect :=
  match ev with
  | .poll _ o =>
    if ls.mon.clientConnected then
      let (ls', effs) := (selectedOfCycle ls ev).foldl (batchStep o) (ls, [])
      (ls', effs ++ [.sleep 30])
    else (ls, [])
  | .transientError reconnectOk =>
    (⟨{ ls.mon with clientConnected := reconnectOk }, ls.emails_processed⟩,
     [.console, .imapDisconnect, .console, .sleep 5,
      .imapConnect reconnectOk] ++
     (if reconnectOk then [Effect.console]
      else [Effect.console, Effect.putStatus false true none,
            Effect.sleep 10]))
  | .fatalError =>
    (ls, [.console, .putStatus false true none, .console, .sleep 10])

/-- The loop while self.running, over a supplied schedule of cycle events;
the loop consumes events only while the run flag holds. -/
def runLoop : LoopState → List CycleEvent → LoopState × List Effect
  | ls, [] => (ls, [])
  | ls, ev :: rest =>
    if ls.mon.running then
      ((runLoop (runCycle ls ev).1 rest).1,
       (runCycle ls ev).2 ++ (runLoop (runCycle ls ev).1 rest).2)
    else (ls, [])

/-- All uids selected for processing over a run (for stating which
identifiers are ever picked up again). -/
def runSelected : LoopState → List CycleEvent → List Nat
  | _, [] => []
  | ls, ev :: rest =>
    if ls.mon.running then
      selectedOfCycle ls ev ++ runSelected (runCycle ls ev).1 rest
    else []

/-- Baseline cursor (line 237): the maximum of all_messages, or 0 when the
mailbox is empty. -/
def baselineOf (mailbox : List Nat) : Nat := mailbox.foldl max 0

/-- Embedding of `EmailMonitor.start` (lines 217-306): no-op if already running;
otherwise set the run flag, report `isRunning=True`, connect (on failure
`connect` itself reports the error, the flag is cleared and `start`
returns); then baseline `last_uid` to the mailbox maximum and run the loop;
finally disconnect, clear the flag and report `isRunning=False`. -/
def start (s : MonitorState) (connectOk : Bool) (baselineMailbox : List Nat)
    (events : List CycleEvent) : MonitorState × List Effect :=
  if s.running then (s, [.console])
  else
    let s1 : MonitorState := { s with running := true }
    let startEffs : List Effect :=
      [.console, .putStatus true false none, .console]
    if !connectOk then
      ({ s1 with running := false },
       startEffs ++ [.console, .putStatus false true none, .console])
    else
      let s2 : MonitorState :=
        { s1 with clientConnected := true,
                  last_uid := baselineOf baselineMailbox }
      let res := runLoop ⟨s2, 0⟩ events
      ({ res.1.mon with running := false, clientConnected := false },
       startEffs ++ [.console, .console] ++ res.2 ++
       [.imapDisconnect, .console, .putStatus false false none, .console])

/-- An environment in which every fetch, extraction and POST succeeds. -/
def oAllOk : MsgOracle := ⟨fun _ => true, fun _ => true, fun _ => true⟩

/-- An environment in which fetch and extraction succeed but the API sink
rejects every POST (status other than 201). -/
def oPostFail : MsgOracle := ⟨fun _ => true, fun _ => true, fun _ => false⟩

/-! Helper lemmas on the sanitizer. -/

lemma basename_foldl_no_slash (l : List Char) :
    ∀ acc : List Char, '/' ∉ acc →
      '/' ∉ l.foldl (fun acc c => if c = '/' then [] else acc ++ [c]) acc := by
  induction l with
  | nil => intro acc h; exact h
  | cons c rest ih =>
    intro acc h
    simp only [List.foldl_cons]
    by_cases hc : c = '/'
    · simp only [hc, if_pos rfl]
      exact ih [] (by simp)
    · simp only [if_neg hc]
      refine ih (acc ++ [c]) ?_
      intro hmem
      rcases List.mem_append.mp hmem with h1 | h1
      · exact h h1
      · simp at h1; exact hc h1.symm

lemma basenameList_no_slash (s : List Char) : '/' ∉ basenameList s :=
  basename_foldl_no_slash s [] (by simp)

lemma basename_foldl_id (l : List Char) :
    ∀ acc : List Char, '/' ∉ l →
      l.foldl (fun acc c => if c = '/' then [] else acc ++ [c]) acc = acc ++ l := by
  induction l with
  | nil => intro acc _; simp
  | cons c rest ih =>
    intro acc h
    have hc : c ≠ '/' := fun hc => h (by simp [hc])
    have hrest : '/' ∉ rest := fun hr => h (by simp [hr])
    simp only [List.foldl_cons, if_neg hc]
    rw [ih (acc ++ [c]) hrest, List.append_assoc]
    simp

lemma basenameList_of_no_slash {l : List Char} (h : '/' ∉ l) :
    basenameList l = l := by
  simpa using basename_foldl_id l [] h

lemma replShady_not_dangerous (c : Char) : replShady c ∉ dangerousChars := by
  unfold replShady
  by_cases h : c ∈ dangerousChars
  · rw [if_pos h]; decide
  · rw [if_neg h]; exact h

lemma collapseDotsAux_cons_dot_true (rest : List Char) :
    collapseDotsAux ('.' :: rest) true = collapseDotsAux rest true := by
  simp [collapseDotsAux]

lemma collapseDotsAux_cons_dot_false (rest : List Char) :
    collapseDotsAux ('.' :: rest) false = '.' :: collapseDotsAux rest true := by
  simp [collapseDotsAux]

lemma collapseDotsAux_cons_ne {a : Char} (ha : a ≠ '.') (rest : List Char)
    (b : Bool) : collapseDotsAux (a :: rest) b = a :: collapseDotsAux rest false := by
  cases b <;> simp [collapseDotsAux, ha]

lemma replShady_eq_self {c : Char} (h : c ∉ dangerousChars) :
    replShady c = c := by
  simp [replShady, h]

lemma mem_collapseDotsAux {c : Char} :
    ∀ (l : List Char) (b : Bool), c ∈ collapseDotsAux l b → c ∈ l := by
  intro l
  induction l with
  | nil => intro b h; simp [collapseDotsAux] at h
  | cons a rest ih =>
    intro b h
    by_cases ha : a = '.'
    · subst ha
      cases b with
      | true =>
        rw [collapseDotsAux_cons_dot_true] at h
        exact List.mem_cons_of_mem _ (ih true h)
      | false =>
        rw [collapseDotsAux_cons_dot_false] at h
        rcases List.mem_cons.mp h with h1 | h1
        · simp [h1]
        · exact List.mem_cons_of_mem _ (ih true h1)
    · rw [collapseDotsAux_cons_ne ha] at h
      rcases List.mem_cons.mp h with h1 | h1
      · simp [h1]
      · exact List.mem_cons_of_mem _ (ih false h1)

lemma collapseDotsAux_true_head :
    ∀ l : List Char, (collapseDotsAux l true).head? ≠ some '.' := by
  intro l
  induction l with
  | nil => simp [collapseDotsAux]
  | cons a rest ih =>
    by_cases ha : a = '.'
    · subst ha
      rw [collapseDotsAux_cons_dot_true]
      exact ih
    · rw [collapseDotsAux_cons_ne ha]
      simpa using ha

lemma hasDoubleDot_cons_of_ne {a : Char} {l : List Char} (ha : a ≠ '.') :
    hasDoubleDot (a :: l) = hasDoubleDot l := by
  cases l with
  | nil => simp [hasDoubleDot]
  | cons b rest => simp [hasDoubleDot, ha]

lemma hasDoubleDot_cons_dot {l : List Char} (hl : l.head? ≠ some '.') :
    hasDoubleDot ('.' :: l) = hasDoubleDot l := by
  cases l with
  | nil => simp [hasDoubleDot]
  | cons b rest =>
    have hb : b ≠ '.' := by simpa using hl
    simp [hasDoubleDot, hb]

lemma collapseDotsAux_no_doubleDot :
    ∀ (l : List Char) (b : Bool), hasDoubleDot (collapseDotsAux l b) = false := by
  intro l
  induction l with
  | nil => intro b; simp [collapseDotsAux, hasDoubleDot]
  | cons a rest ih =>
    intro b
    by_cases ha : a = '.'
    · subst ha
      cases b with
      | true =>
        rw [collapseDotsAux_cons_dot_true]
        exact ih true
      | false =>
        rw [collapseDotsAux_cons_dot_false,
            hasDoubleDot_cons_dot (collapseDotsAux_true_head rest)]
        exact ih true
    · rw [collapseDotsAux_cons_ne ha, hasDoubleDot_cons_of_ne ha]
      exact ih false

lemma collapseDotsAux_id :
    ∀ l : List Char, hasDoubleDot l = false →
      collapseDotsAux l false = l ∧
      (l.head? ≠ some '.' → collapseDotsAux l true = l) := by
  intro l
  induction l with
  | nil => intro _; simp [collapseDotsAux]
  | cons a rest ih =>
    intro h
    by_cases ha : a = '.'
    · subst ha
      have hhead : rest.head? ≠ some '.' := by
        cases rest with
        | nil => simp
        | cons b tl =>
          intro hb
          simp only [List.head?_cons, Option.some.injEq] at hb
          subst hb
          simp [hasDoubleDot] at h
      have hrest : hasDoubleDot rest = false := by
        rwa [hasDoubleDot_cons_dot hhead] at h
      constructor
      · rw [collapseDotsAux_cons_dot_false, (ih hrest).2 hhead]
      · intro hcontra
        simp at hcontra
    · have hrest : hasDoubleDot rest = false := by
        rwa [hasDoubleDot_cons_of_ne ha] at h
      constructor
      · rw [collapseDotsAux_cons_ne ha, (ih hrest).1]
      · intro _
        rw [collapseDotsAux_cons_ne ha, (ih hrest).1]

lemma map_replShady_eq_self {l : List Char}
    (h : ∀ c ∈ l, c ∉ dangerousChars) : l.map replShady = l := by
  induction l with
  | nil => simp
  | cons a rest ih =>
    simp only [List.map_cons]
    rw [replShady_eq_self (h a (by simp)), ih (fun c hc => h c (by simp [hc]))]

lemma sanitizeChars_no_slash (s : List Char) : '/' ∉ sanitizeChars s := by
  intro h
  have h1 : '/' ∈ (basenameList s).map replShady :=
    mem_collapseDotsAux _ _ h
  rcases List.mem_map.mp h1 with ⟨c, hc, hrc⟩
  by_cases hd : c ∈ dangerousChars
  · simp [replShady, hd] at hrc
  · rw [replShady_eq_self hd] at hrc
    subst hrc
    exact basenameList_no_slash s hc

lemma sanitizeChars_no_doubleDot (s : List Char) :
    hasDoubleDot (sanitizeChars s) = false :=
  collapseDotsAux_no_doubleDot _ _

lemma sanitizeChars_not_dangerous (s : List Char) :
    ∀ c ∈ sanitizeChars s, c ∉ dangerousChars := by
  intro c hc
  have h1 : c ∈ (basenameList s).map replShady := mem_collapseDotsAux _ _ hc
  rcases List.mem_map.mp h1 with ⟨d, _, hdc⟩
  rw [← hdc]
  exact replShady_not_dangerous d

lemma sanitizeChars_idem (s : List Char) :
    sanitizeChars (sanitizeChars s) = sanitizeChars s := by
  unfold sanitizeChars
  set t := collapseDots ((basenameList s).map replShady) with ht
  have hslash : '/' ∉ t := by
    rw [ht]; exact sanitizeChars_no_slash s
  have hdd : hasDoubleDot t = false := by
    rw [ht]; exact sanitizeChars_no_doubleDot s
  have hdanger : ∀ c ∈ t, c ∉ dangerousChars := by
    rw [ht]; exact sanitizeChars_not_dangerous s
  rw [basenameList_of_no_slash hslash, map_replShady_eq_self hdanger]
  exact (collapseDotsAux_id t hdd).1

/-! Helper lemmas on the attachment gate. -/

lemma fileExtOf_empty : fileExtOf "" = "" := by decide

lemma fileExtOf_dot : fileExtOf "." = "" := by decide

lemma fileExtOf_dotdot : fileExtOf ".." = "" := by decide

lemma empty_not_allowed : "" ∉ allowed_extensions := by decide

/-- If the sanitized name is empty, a dot or a dot-dot, the extension check
fails (the extension is computed from the pre-fallback sanitized name), so
the part is skipped and nothing is written, fallback name or not. -/
lemma processAttachment_trivial_name {filename : String}
    (h : sanitizeFilename filename = "" ∨ sanitizeFilename filename = "." ∨
         sanitizeFilename filename = "..")
    (n : Nat) (size : Nat) : processAttachment n filename size = none := by
  have hext : fileExtOf (sanitizeFilename filename) = "" := by
    rcases h with h | h | h <;>
      rw [h] <;> [exact fileExtOf_empty; exact fileExtOf_dot; exact fileExtOf_dotdot]
  simp only [processAttachment]
  rw [hext]
  simp [empty_not_allowed]

/-- The accept/skip decision and the written name do not depend on the
attachment counter: the counter only enters the fallback name, and parts
with a trivial sanitized name always fail the extension check. -/
lemma processAttachment_counter_irrelevant (n m : Nat) (filename : String)
    (size : Nat) :
    processAttachment n filename size = processAttachment m filename size := by
  by_cases h : sanitizeFilename filename = "" ∨ sanitizeFilename filename = "." ∨
      sanitizeFilename filename = ".."
  · rw [processAttachment_trivial_name h, processAttachment_trivial_name h]
  · unfold processAttachment
    simp only [if_neg h]

lemma processAttachments_foldl (o : List MimePart) :
    ∀ acc : List String,
      o.foldl
        (fun acc p =>
          match processAttachment acc.length p.filename p.payloadSize with
          | some nm => acc ++ [nm]
          | none => acc)
        acc =
      acc ++ o.filterMap (fun p => processAttachment 0 p.filename p.payloadSize) := by
  induction o with
  | nil => intro acc; simp
  | cons p rest ih =>
    intro acc
    simp only [List.foldl_cons, List.filterMap_cons]
    rw [processAttachment_counter_irrelevant acc.length 0]
    cases hp : processAttachment 0 p.filename p.payloadSize with
    | none => simp only [hp]; rw [ih acc]
    | some nm =>
      simp only [hp]
      rw [ih (acc ++ [nm]), List.append_assoc]
      simp

/-- Accepted attachments of a message are exactly the per-part accepted
ones, each part judged independently of the other parts. -/
lemma processAttachments_eq_filterMap (parts : List MimePart) :
    processAttachments parts =
      parts.filterMap (fun p => processAttachment 0 p.filename p.payloadSize) := by
  unfold processAttachments
  simpa using processAttachments_foldl parts []

/-! Helper lemmas on the run loop. -/

lemma batchStep_mon_fields (o : MsgOracle) (acc : LoopState × List Effect)
    (uid : Nat) :
    (batchStep o acc uid).1.mon.running = acc.1.mon.running ∧
    (batchStep o acc uid).1.mon.clientConnected = acc.1.mon.clientConnected := by
  obtain ⟨ls, effs⟩ := acc
  unfold batchStep
  by_cases hr : ls.mon.running
  · by_cases hf : o.fetchOk uid <;> simp [hr, hf]
  · simp [Bool.not_eq_true] at hr
    simp [hr]

lemma batchStep_last_uid (o : MsgOracle) (ls : LoopState) (effs : List Effect)
    (uid : Nat) :
    (batchStep o (ls, effs) uid).1.mon.last_uid =
      if ls.mon.running && o.fetchOk uid then max ls.mon.last_uid uid
      else ls.mon.last_uid := by
  unfold batchStep
  by_cases hr : ls.mon.running
  · by_cases hf : o.fetchOk uid <;> simp [hr, hf]
  · simp [Bool.not_eq_true] at hr
    simp [hr]

lemma batchStep_mono (o : MsgOracle) (acc : LoopState × List Effect)
    (uid : Nat) :
    acc.1.mon.last_uid ≤ (batchStep o acc uid).1.mon.last_uid := by
  obtain ⟨ls, effs⟩ := acc
  rw [batchStep_last_uid]
  by_cases h : ls.mon.running && o.fetchOk uid
  · simp [h, Nat.le_max_left]
  · simp [h]

lemma batchFold_mono (o : MsgOracle) (uids : List Nat) :
    ∀ acc : LoopState × List Effect,
      acc.1.mon.last_uid ≤ (uids.foldl (batchStep o) acc).1.mon.last_uid := by
  induction uids with
  | nil => intro acc; exact Nat.le_refl _
  | cons uid rest ih =>
    intro acc
    simp only [List.foldl_cons]
    exact le_trans (batchStep_mono o acc uid) (ih (batchStep o acc uid))

lemma batchFold_mon_fields (o : MsgOracle) (uids : List Nat) :
    ∀ acc : LoopState × List Effect,
      (uids.foldl (batchStep o) acc).1.mon.running = acc.1.mon.running ∧
      (uids.foldl (batchStep o) acc).1.mon.clientConnected =
        acc.1.mon.clientConnected := by
  induction uids with
  | nil => intro acc; exact ⟨rfl, rfl⟩
  | cons uid rest ih =>
    intro acc
    simp only [List.foldl_cons]
    obtain ⟨h1, h2⟩ := ih (batchStep o acc uid)
    obtain ⟨h3, h4⟩ := batchStep_mon_fields o acc uid
    exact ⟨h1.trans h3, h2.trans h4⟩

/-- A POST effect produced by one batch step is either inherited from the
trace so far or names the uid just processed. -/
lemma batchStep_posts (o : MsgOracle) (ls : LoopState) (effs : List Effect)
    (uid u : Nat) :
    Effect.postEmail u ∈ (batchStep o (ls, effs) uid).2 →
      Effect.postEmail u ∈ effs ∨ u = uid := by
  intro h
  unfold batchStep at h
  by_cases hr : ls.mon.running
  · by_cases hf : o.fetchOk uid
    · by_cases he : o.extractOk uid
      · by_cases hp : o.postOk uid
        · simp [hr, hf, he, hp] at h
          tauto
        · simp [hr, hf, he, hp] at h
          tauto
      · simp [hr, hf, he] at h
        tauto
    · simp [hr, hf] at h
      tauto
  · simp only [Bool.not_eq_true] at hr
    simp [hr] at h
    exact Or.inl h

/-- A POST effect produced by the batch names a uid of the batch. -/
lemma batchFold_posts (o : MsgOracle) (uids : List Nat) :
    ∀ (acc : LoopState × List Effect) (u : Nat),
      Effect.postEmail u ∈ (uids.foldl (batchStep o) acc).2 →
        Effect.postEmail u ∈ acc.2 ∨ u ∈ uids := by
  induction uids with
  | nil => intro acc u h; exact Or.inl h
  | cons uid rest ih =>
    intro acc u h
    simp only [List.foldl_cons] at h
    rcases ih (batchStep o acc uid) u h with h1 | h1
    · rcases batchStep_posts o acc.1 acc.2 uid u (by simpa using h1) with h2 | h2
      · exact Or.inl h2
      · exact Or.inr (by simp [h2])
    · exact Or.inr (by simp [h1])

lemma mem_insertAsc {u x : Nat} :
    ∀ l : List Nat, u ∈ insertAsc x l → u = x ∨ u ∈ l := by
  intro l
  induction l with
  | nil => intro h; simp [insertAsc] at h; exact Or.inl h
  | cons y ys ih =>
    intro h
    unfold insertAsc at h
    by_cases hxy : x ≤ y
    · simp only [if_pos hxy] at h
      rcases List.mem_cons.mp h with h1 | h1
      · exact Or.inl h1
      · exact Or.inr h1
    · simp only [if_neg hxy] at h
      rcases List.mem_cons.mp h with h1 | h1
      · exact Or.inr (by simp [h1])
      · rcases ih h1 with h2 | h2
        · exact Or.inl h2
        · exact Or.inr (by simp [h2])

lemma mem_sortAsc {u : Nat} :
    ∀ l : List Nat, u ∈ sortAsc l → u ∈ l := by
  intro l
  induction l with
  | nil => intro h; simp [sortAsc] at h
  | cons x xs ih =>
    intro h
    unfold sortAsc at h
    simp only [List.foldr_cons] at h
    rcases mem_insertAsc _ h with h1 | h1
    · simp [h1]
    · exact List.mem_cons_of_mem _ (ih h1)

/-- Every uid selected by a poll is strictly above the cursor at the start
of that poll. -/
lemma selectedOfCycle_fresh (ls : LoopState) (ev : CycleEvent) :
    ∀ u ∈ selectedOfCycle ls ev, ls.mon.last_uid < u := by
  intro u hu
  cases ev with
  | poll mailbox o =>
    unfold selectedOfCycle at hu
    by_cases hc : ls.mon.clientConnected
    · simp only [hc, if_pos] at hu
      have := mem_sortAsc _ hu
      exact of_decide_eq_true (List.mem_filter.mp this).2
    · simp [hc] at hu
  | transientError rOk => simp [selectedOfCycle] at hu
  | fatalError => simp [selectedOfCycle] at hu

lemma runCycle_mono (ls : LoopState) (ev : CycleEvent) :
    ls.mon.last_uid ≤ (runCycle ls ev).1.mon.last_uid := by
  cases ev with
  | poll mailbox o =>
    unfold runCycle
    by_cases hc : ls.mon.clientConnected
    · simp only [hc, if_pos]
      exact batchFold_mono o _ (ls, [])
    · simp [hc]
  | transientError rOk => simp [runCycle]
  | fatalError => simp [runCycle]

lemma runCycle_running (ls : LoopState) (ev : CycleEvent) :
    (runCycle ls ev).1.mon.running = ls.mon.running := by
  cases ev with
  | poll mailbox o =>
    unfold runCycle
    by_cases hc : ls.mon.clientConnected
    · simp only [hc, if_pos]
      exact (batchFold_mon_fields o _ (ls, [])).1
    · simp [hc]
  | transientError rOk => simp [runCycle]
  | fatalError => simp [runCycle]

/-- A uid at or below the cursor is never selected at any later poll of
the run. -/
lemma not_mem_runSelected (events : List CycleEvent) :
    ∀ (ls : LoopState) (uid : Nat), uid ≤ ls.mon.last_uid →
      uid ∉ runSelected ls events := by
  induction events with
  | nil => intro ls uid _ h; simp [runSelected] at h
  | cons ev rest ih =>
    intro ls uid hle h
    unfold runSelected at h
    by_cases hr : ls.mon.running
    · simp only [hr, if_pos] at h
      rcases List.mem_append.mp h with h1 | h1
      · exact absurd (selectedOfCycle_fresh ls ev uid h1) (Nat.not_lt.mpr hle)
      · exact ih (runCycle ls ev).1 uid (hle.trans (runCycle_mono ls ev)) h1
    · simp [hr] at h

/-- A POST effect of a poll cycle names a selected uid. -/
lemma runCycle_posts (ls : LoopState) (ev : CycleEvent) (u : Nat) :
    Effect.postEmail u ∈ (runCycle ls ev).2 → u ∈ selectedOfCycle ls ev := by
  intro h
  cases ev with
  | poll mailbox o =>
    unfold runCycle at h
    by_cases hc : ls.mon.clientConnected
    · simp only [hc, if_pos] at h
      rcases List.mem_append.mp h with h1 | h1
      · rcases batchFold_posts o _ (ls, []) u h1 with h2 | h2
        · simp at h2
        · simpa [selectedOfCycle, hc] using h2
      · simp at h1
    · simp [hc] at h
  | transientError rOk =>
    unfold runCycle at h
    by_cases hr : rOk <;> simp [hr] at h
  | fatalError => simp [runCycle] at h

/-- Unfolding of the run loop at a cons of the schedule while running. -/
lemma runLoop_cons_running {ls : LoopState} (h : ls.mon.running = true)
    (ev : CycleEvent) (rest : List CycleEvent) :
    runLoop ls (ev :: rest) =
      ((runLoop (runCycle ls ev).1 rest).1,
       (runCycle ls ev).2 ++ (runLoop (runCycle ls ev).1 rest).2) := by
  conv_lhs => rw [runLoop]
  rw [if_pos h]

/-- A POST effect of the whole run names a uid selected at some poll. -/
lemma runLoop_posts (events : List CycleEvent) :
    ∀ (ls : LoopState) (u : Nat),
      Effect.postEmail u ∈ (runLoop ls events).2 → u ∈ runSelected ls events := by
  induction events with
  | nil => intro ls u h; simp [runLoop] at h
  | cons ev rest ih =>
    intro ls u h
    unfold runLoop at h
    by_cases hr : ls.mon.running
    · simp only [hr, if_pos] at h
      unfold runSelected
      simp only [hr, if_pos]
      rcases List.mem_append.mp h with h1 | h1
      · exact List.mem_append.mpr (Or.inl (runCycle_posts ls ev u h1))
      · exact List.mem_append.mpr (Or.inr (ih (runCycle ls ev).1 u h1))
    · simp [hr] at h

/-! Helper lemmas on the baseline maximum. -/

lemma le_foldl_max (l : List Nat) :
    ∀ a : Nat, a ≤ l.foldl max a ∧ ∀ u ∈ l, u ≤ l.foldl max a := by
  induction l with
  | nil => intro a; simp
  | cons x xs ih =>
    intro a
    simp only [List.foldl_cons]
    obtain ⟨h1, h2⟩ := ih (max a x)
    refine ⟨le_trans (Nat.le_max_left a x) h1, ?_⟩
    intro u hu
    rcases List.mem_cons.mp hu with h3 | h3
    · exact le_trans (h3 ▸ Nat.le_max_right a x) h1
    · exact h2 u h3

lemma foldl_max_mem (l : List Nat) :
    ∀ a : Nat, l.foldl max a = a ∨ l.foldl max a ∈ l := by
  induction l with
  | nil => intro a; simp
  | cons x xs ih =>
    intro a
    simp only [List.foldl_cons]
    rcases ih (max a x) with h | h
    · rcases max_choice a x with h1 | h1
      · exact Or.inl (h.trans h1)
      · exact Or.inr (by simp [h.trans h1])
    · exact Or.inr (List.mem_cons_of_mem _ h)

lemma baselineOf_mem {l : List Nat} (hne : l ≠ []) : baselineOf l ∈ l := by
  unfold baselineOf
  rcases foldl_max_mem l 0 with h | h
  · cases l with
    | nil => exact absurd rfl hne
    | cons x xs =>
      have hx : x ≤ baselineOf (x :: xs) := (le_foldl_max (x :: xs) 0).2 x (by simp)
      unfold baselineOf at hx
      rw [h] at hx
      have : x = 0 := Nat.le_zero.mp hx
      rw [h, ← this]
      simp
  · exact h

lemma fileExtOf_of_trivial {name : String}
    (h : name = "" ∨ name = "." ∨ name = "..") : fileExtOf name = "" := by
  rcases h with h | h | h <;>
    rw [h] <;> [exact fileExtOf_empty; exact fileExtOf_dot; exact fileExtOf_dotdot]

/-! Claim theorems. -/

/-- C5: for every input filename, sanitization (basename, replacement of
the characters <>:"|?* by underscores, collapsing of dot-runs) yields a
name with no path-separator component and no dot-dot sequence, and the
sanitization is idempotent. -/
theorem sanitize_safe_and_idempotent :
    ∀ s : String,
      '/' ∉ (sanitizeFilename s).data ∧
      hasDoubleDot (sanitizeFilename s).data = false ∧
      sanitizeFilename (sanitizeFilename s) = sanitizeFilename s := by
  intro s
  refine ⟨sanitizeChars_no_slash s.data, sanitizeChars_no_doubleDot s.data, ?_⟩
  unfold sanitizeFilename
  exact congrArg String.mk (sanitizeChars_idem s.data)

/-- C4: an attachment part is written to disk if and only if the
lower-cased splitext extension of its sanitized name is in the allow-list
and its decoded payload is at most 100 MiB; a rejected part is skipped
while every other part of the message is still judged independently (the
accepted list is a filterMap over the parts). -/
theorem attachment_written_iff_allowed_and_small :
    (∀ (n : Nat) (name : String) (size : Nat),
        (processAttachment n name size).isSome ↔
          (fileExtOf (sanitizeFilename name) ∈ allowed_extensions ∧
           size ≤ sizeCap)) ∧
    ∀ parts : List MimePart,
      processAttachments parts =
        parts.filterMap (fun p => processAttachment 0 p.filename p.payloadSize) := by
  constructor
  · intro n name size
    by_cases h : sanitizeFilename name = "" ∨ sanitizeFilename name = "." ∨
        sanitizeFilename name = ".."
    · rw [processAttachment_trivial_name h, fileExtOf_of_trivial h]
      simp [empty_not_allowed]
    · simp only [processAttachment, if_neg h]
      by_cases hext : fileExtOf (sanitizeFilename name) ∈ allowed_extensions
      · by_cases hsize : sizeCap < size
        · simp [hext, hsize, Nat.not_le.mpr hsize]
        · simp [hext, hsize, Nat.not_lt.mp hsize]
      · simp [hext]
  · exact processAttachments_eq_filterMap

/-- C9: a part whose sanitized filename is empty, a dot or a dot-dot is
never written, under neither the original nor the generated fallback name:
the extension used for the allow-list check is computed from the
pre-substitution sanitized name and is empty for such names. -/
theorem trivial_sanitized_name_never_written :
    ∀ (filename : String) (n size : Nat),
      sanitizeFilename filename = "" ∨ sanitizeFilename filename = "." ∨
        sanitizeFilename filename = ".." →
      processAttachment n filename size = none := by
  intro filename n size h
  exact processAttachment_trivial_name h n size

theorem trivial_sanitized_name_never_written_witness :
    processAttachment 0 "..." 7 = none :=
  trivial_sanitized_name_never_written "..." 0 7 (Or.inr (Or.inl (by decide)))

/-- C8: whatever the outcome of the HTTP PUT (200, non-200 or a raised
exception), update_status returns normally and leaves the run flag, the
cursor and the session handle of the monitor unchanged (the processed
count is a by-value argument and is likewise untouched). -/
theorem update_status_preserves_state :
    ∀ (s : MonitorState) (is_running : Bool) (error : Option String)
      (emails_processed : Option Nat) (out : PutOutcome),
      (update_status s is_running error emails_processed out).1 = s ∧
      (update_status s is_running error emails_processed out).1.running =
        s.running ∧
      (update_status s is_running error emails_processed out).1.last_uid =
        s.last_uid ∧
      (update_status s is_running error emails_processed out).1.clientConnected =
        s.clientConnected := by
  intro s b e p out
  cases out <;> exact ⟨rfl, rfl, rfl, rfl⟩

/-- C10: stop on a monitor whose run flag is already false only prints a
console line: no status PUT is emitted and the state is returned untouched;
in particular the CLI stop subcommand, acting on a freshly constructed
monitor, emits no status update. -/
theorem stop_when_not_running_is_noop :
    ∀ s : MonitorState, s.running = false →
      stop s = (s, [Effect.console]) ∧
      (∀ (b e : Bool) (p : Option Nat), Effect.putStatus b e p ∉ (stop s).2) ∧
      cliStop = (initMonitor, [Effect.console]) ∧
      (∀ (b e : Bool) (p : Option Nat), Effect.putStatus b e p ∉ cliStop.2) := by
  intro s h
  have hs : stop s = (s, [Effect.console]) := by
    unfold stop
    simp [h]
  have hcli : cliStop = (initMonitor, [Effect.console]) := by
    unfold cliStop stop initMonitor
    simp
  refine ⟨hs, ?_, hcli, ?_⟩
  · intro b e p hmem
    rw [hs] at hmem
    simp at hmem
  · intro b e p hmem
    rw [hcli] at hmem
    simp at hmem

theorem stop_when_not_running_is_noop_witness :
    stop ⟨false, true, 42⟩ = (⟨false, true, 42⟩, [Effect.console]) :=
  (stop_when_not_running_is_noop ⟨false, true, 42⟩ rfl).1

/-- C2: the cursor never decreases — at each per-message advance, across
each whole cycle, and from the initial state to the baseline — and a uid
at or below the cursor at comparison time is never selected for processing
at that or any later poll of the run. -/
theorem cursor_monotone_and_no_reselection :
    (∀ (o : MsgOracle) (acc : LoopState × List Effect) (uid : Nat),
        acc.1.mon.last_uid ≤ (batchStep o acc uid).1.mon.last_uid) ∧
    (∀ (ls : LoopState) (ev : CycleEvent),
        ls.mon.last_uid ≤ (runCycle ls ev).1.mon.last_uid) ∧
    (∀ mailbox : List Nat, initMonitor.last_uid ≤ baselineOf mailbox) ∧
    (∀ (ls : LoopState) (events : List CycleEvent) (uid : Nat),
        uid ≤ ls.mon.last_uid → uid ∉ runSelected ls events) := by
  refine ⟨batchStep_mono, runCycle_mono, fun _ => Nat.zero_le _, ?_⟩
  intro ls events uid h
  exact not_mem_runSelected events ls uid h

theorem cursor_monotone_and_no_reselection_witness :
    7 ∉ runSelected ⟨⟨true, true, 10⟩, 0⟩ [CycleEvent.poll [7, 11] oAllOk] :=
  cursor_monotone_and_no_reselection.2.2.2 ⟨⟨true, true, 10⟩, 0⟩
    [CycleEvent.poll [7, 11] oAllOk] 7 (by decide)

/-- C3: the baseline sets the cursor to the maximum of the mailbox (0 when
empty, an element of the mailbox otherwise, and an upper bound of it), and
a uid present in the mailbox at start is never named in any POST of that
run. -/
theorem baseline_max_and_prestart_never_posted :
    ∀ mailbox : List Nat,
      (mailbox = [] → baselineOf mailbox = 0) ∧
      (∀ u ∈ mailbox, u ≤ baselineOf mailbox) ∧
      (mailbox ≠ [] → baselineOf mailbox ∈ mailbox) ∧
      (∀ (connectOk : Bool) (events : List CycleEvent) (uid : Nat),
          uid ∈ mailbox →
          Effect.postEmail uid ∉ (start initMonitor connectOk mailbox events).2) := by
  intro mailbox
  refine ⟨?_, ?_, baselineOf_mem, ?_⟩
  · intro h
    subst h
    rfl
  · intro u hu
    exact (le_foldl_max mailbox 0).2 u hu
  · intro connectOk events uid huid hmem
    unfold start at hmem
    simp only [initMonitor, Bool.false_eq_true, if_false] at hmem
    cases connectOk with
    | false => simp at hmem
    | true =>
      simp only [Bool.not_true, Bool.false_eq_true, if_false,
        List.append_assoc, List.mem_append] at hmem
      have hpost : Effect.postEmail uid ∈
          (runLoop ⟨⟨true, true, baselineOf mailbox⟩, 0⟩ events).2 := by
        rcases hmem with h | h
        · simp at h
        · rcases h with h | h
          · simp at h
          · rcases h with h | h
            · exact h
            · simp at h
      have hsel := runLoop_posts events ⟨⟨true, true, baselineOf mailbox⟩, 0⟩
        uid hpost
      exact not_mem_runSelected events ⟨⟨true, true, baselineOf mailbox⟩, 0⟩
        uid ((le_foldl_max mailbox 0).2 uid huid) hsel

theorem baseline_max_and_prestart_never_posted_witness :
    Effect.postEmail 5 ∉
      (start initMonitor true [5, 3] [CycleEvent.poll [5, 3, 9] oAllOk]).2 :=
  (baseline_max_and_prestart_never_posted [5, 3]).2.2.2 true
    [CycleEvent.poll [5, 3, 9] oAllOk] 5 (by decide)

/-- C1 as stated is false: with the cursor at 0, one mailbox message with
uid 1, a successful fetch and extraction, and an API sink rejecting the
POST, the hand-off fails (the POST attempt is in the trace, the processed
count stays 0) and yet the cursor advances to 1, so the next poll of the
same mailbox selects nothing and uid 1 is never retried. -/
theorem failed_handoff_still_advances_cursor :
    (runCycle ⟨⟨true, true, 0⟩, 0⟩ (CycleEvent.poll [1] oPostFail)).1.mon.last_uid
        = 1 ∧
    Effect.postEmail 1 ∈
      (runCycle ⟨⟨true, true, 0⟩, 0⟩ (CycleEvent.poll [1] oPostFail)).2 ∧
    (runCycle ⟨⟨true, true, 0⟩, 0⟩
        (CycleEvent.poll [1] oPostFail)).1.emails_processed = 0 ∧
    selectedOfCycle (runCycle ⟨⟨true, true, 0⟩, 0⟩ (CycleEvent.poll [1] oPostFail)).1
      (CycleEvent.poll [1] oPostFail) = [] := by
  decide

/-- C1 amended: line 276 advances the cursor to max(cursor, uid) for every
selected identifier whose fetch block completed, whether or not the
hand-off to the API sink succeeded; only an exception raised while
fetching the message (or a cleared run flag) leaves the cursor unchanged,
so an identifier whose POST was rejected is not retried. -/
theorem cursor_advances_iff_fetch_succeeds :
    ∀ (o : MsgOracle) (ls : LoopState) (effs : List Effect) (uid : Nat),
      (batchStep o (ls, effs) uid).1.mon.last_uid =
        if ls.mon.running && o.fetchOk uid then max ls.mon.last_uid uid
        else ls.mon.last_uid := by
  intro o ls effs uid
  exact batchStep_last_uid o ls effs uid

/-- C6 as stated is false: a non-transient error does report
isRunning=false with the error, but the run loop does not exit — from a
running state, a later cycle after the fatal one is still executed (here
it processes uid 11 and bumps the processed count). -/
theorem fatal_error_does_not_exit_loop :
    Effect.putStatus false true none ∈
      (runCycle ⟨⟨true, true, 10⟩, 0⟩ CycleEvent.fatalError).2 ∧
    (runCycle ⟨⟨true, true, 10⟩, 0⟩ CycleEvent.fatalError).1 =
      ⟨⟨true, true, 10⟩, 0⟩ ∧
    (runLoop ⟨⟨true, true, 10⟩, 0⟩
        [CycleEvent.fatalError, CycleEvent.poll [11] oAllOk]).1.emails_processed
      = 1 ∧
    Effect.postEmail 11 ∈
      (runLoop ⟨⟨true, true, 10⟩, 0⟩
        [CycleEvent.fatalError, CycleEvent.poll [11] oAllOk]).2 := by
  decide

/-- C6 amended: on a non-transient error the monitor reports
isRunning=false with the error and sleeps 10 seconds, but the run flag is
untouched and the loop continues with the next cycle instead of exiting. -/
theorem fatal_error_reports_and_continues :
    ∀ (ls : LoopState) (rest : List CycleEvent), ls.mon.running = true →
      runCycle ls CycleEvent.fatalError =
        (ls, [Effect.console, Effect.putStatus false true none, Effect.console,
              Effect.sleep 10]) ∧
      runLoop ls (CycleEvent.fatalError :: rest) =
        ((runLoop ls rest).1,
         [Effect.console, Effect.putStatus false true none, Effect.console,
          Effect.sleep 10] ++ (runLoop ls rest).2) := by
  intro ls rest h
  have hc : runCycle ls CycleEvent.fatalError =
      (ls, [Effect.console, Effect.putStatus false true none, Effect.console,
            Effect.sleep 10]) := by
    simp [runCycle]
  refine ⟨hc, ?_⟩
  rw [runLoop_cons_running h, hc]

theorem fatal_error_reports_and_continues_witness :
    runCycle ⟨⟨true, true, 3⟩, 2⟩ CycleEvent.fatalError =
      (⟨⟨true, true, 3⟩, 2⟩,
       [Effect.console, Effect.putStatus false true none, Effect.console,
        Effect.sleep 10]) :=
  (fatal_error_reports_and_continues ⟨⟨true, true, 3⟩, 2⟩ [] rfl).1

/-- C7: on a transient error the monitor disconnects, sleeps 5 seconds and
retries the connection — with a further 10 second sleep (and an error
status report from connect) when the reconnect fails — and the loop then
continues with the run flag and cursor untouched; a transient error never
makes the loop exit. -/
theorem transient_error_reconnects_and_continues :
    ∀ (ls : LoopState) (rOk : Bool) (rest : List CycleEvent),
      ls.mon.running = true →
      runCycle ls (CycleEvent.transientError rOk) =
        (⟨{ ls.mon with clientConnected := rOk }, ls.emails_processed⟩,
         [Effect.console, Effect.imapDisconnect, Effect.console,
          Effect.sleep 5, Effect.imapConnect rOk] ++
         (if rOk then [Effect.console]
          else [Effect.console, Effect.putStatus false true none,
                Effect.sleep 10])) ∧
      (runCycle ls (CycleEvent.transientError rOk)).1.mon.running = true ∧
      (runCycle ls (CycleEvent.transientError rOk)).1.mon.last_uid =
        ls.mon.last_uid ∧
      runLoop ls (CycleEvent.transientError rOk :: rest) =
        ((runLoop ⟨{ ls.mon with clientConnected := rOk },
            ls.emails_processed⟩ rest).1,
         ([Effect.console, Effect.imapDisconnect, Effect.console,
           Effect.sleep 5, Effect.imapConnect rOk] ++
          (if rOk then [Effect.console]
           else [Effect.console, Effect.putStatus false true none,
                 Effect.sleep 10])) ++
         (runLoop ⟨{ ls.mon with clientConnected := rOk },
            ls.emails_processed⟩ rest).2) := by
  intro ls rOk rest h
  have hc : runCycle ls (CycleEvent.transientError rOk) =
      (⟨{ ls.mon with clientConnected := rOk }, ls.emails_processed⟩,
       [Effect.console, Effect.imapDisconnect, Effect.console,
        Effect.sleep 5, Effect.imapConnect rOk] ++
       (if rOk then [Effect.console]
        else [Effect.console, Effect.putStatus false true none,
              Effect.sleep 10])) := by
    simp [runCycle]
  refine ⟨hc, ?_, ?_, ?_⟩
  · rw [hc]
    exact h
  · rw [hc]
  · rw [runLoop_cons_running h, hc]

theorem transient_error_reconnects_and_continues_witness :
    (runCycle ⟨⟨true, true, 6⟩, 1⟩
        (CycleEvent.transientError false)).1.mon.running = true :=
  (transient_error_reconnects_and_continues ⟨⟨true, true, 6⟩, 1⟩ false []
    rfl).2.1

end EmailMonitor
